import Mathlib

/-!
Verification of the version-state resolution core of `goversion`,
a Go toolchain version manager.

Go strings are modelled as `List Char`; Go `int` results of `strconv.Atoi`
are modelled as `Int` with the 64-bit clamping that `ParseInt` performs on
range errors (the error itself is discarded by the callers in the source).
Filesystem and subprocess effects are modelled by an explicit state
(`Sys`) plus an event trace (`Ev`), mirroring the recording test doubles
shipped with the repository.
-/

/-- True for an ASCII decimal digit, `[0-9]`. -/
def isDigit09 (c : Char) : Bool := '0' ≤ c && c ≤ '9'

/-- True for a nonzero ASCII decimal digit, `[1-9]`. -/
def isDigit19 (c : Char) : Bool := '1' ≤ c && c ≤ '9'

/-- Model of `strings.Split` with a one-character separator. -/
def splitOnChar (sep : Char) : List Char → List (List Char)
  | [] => [[]]
  | c :: cs =>
    match splitOnChar sep cs with
    | [] => [[c]]
    | g :: gs => if c = sep then [] :: g :: gs else (c :: g) :: gs

/-- Model of `strings.Join` with a one-character separator. -/
def joinChar (sep : Char) : List (List Char) → List Char
  | [] => []
  | [x] => x
  | x :: xs => x ++ sep :: joinChar sep xs

/-- Model of `strings.Index`: position of the first occurrence of `needle`
in `hay`, or `none` when absent (Go returns `-1`). -/
def findSub (hay needle : List Char) : Option Nat :=
  if needle.isPrefixOf hay then some 0
  else
    match hay with
    | [] => none
    | _ :: t => (findSub t needle).map (· + 1)

/-- Model of `strings.TrimPrefix`. -/
def trimPre (p s : List Char) : List Char :=
  if p.isPrefixOf s then s.drop p.length else s

/-- Model of `filepath.Base` for slash-separated paths. -/
def baseName (p : List Char) : List Char :=
  if p = [] then ['.']
  else
    let q := (p.reverse.dropWhile (· = '/')).reverse
    let r := (q.reverse.takeWhile (· ≠ '/')).reverse
    if r = [] then ['/'] else r

/-- Numeric value of a nonempty all-digit string; `none` otherwise. -/
def decValAux (acc : Nat) : List Char → Option Nat
  | [] => some acc
  | c :: cs => if isDigit09 c then decValAux (acc * 10 + (c.toNat - 48)) cs else none

/-- Numeric value of a nonempty all-digit string; `none` otherwise. -/
def decVal : List Char → Option Nat
  | [] => none
  | l => decValAux 0 l

def int64Max : Int := 9223372036854775807

def int64Min : Int := -9223372036854775808

/-- Model of `strconv.Atoi` as used in the source: the error is discarded,
so a syntax error yields `0` and a range error yields the clamped bound. -/
def atoi (l : List Char) : Int :=
  match l with
  | '+' :: r =>
    match decVal r with
    | some n => if int64Max < (n : Int) then int64Max else (n : Int)
    | none => 0
  | '-' :: r =>
    match decVal r with
    | some n => if (-(n : Int)) < int64Min then int64Min else (-(n : Int))
    | none => 0
  | r =>
    match decVal r with
    | some n => if int64Max < (n : Int) then int64Max else (n : Int)
    | none => 0

/-- Go byte-wise lexicographic string `≤` (ASCII here, so per-`Char`). -/
def strLe : List Char → List Char → Bool
  | [], _ => true
  | _ :: _, [] => false
  | c :: cs, d :: ds => if c = d then strLe cs ds else decide (c < d)

def tipStr : List Char := "tip".toList

def goStr : List Char := "go".toList

def mainStr : List Char := "main".toList

def betaStr : List Char := "beta".toList

def rcStr : List Char := "rc".toList

def onePre : List Char := "1.".toList

/-- Model of `parseVersion` from `utils.go`: strip a `beta`/`rc` tail found
at a positive index, trim a leading `1.`, split on `.`, and read the first
one or two numeric components.  Returns `(maj, min, tail)`. -/
def parseVersion (v : List Char) : Int × Int × List Char :=
  let s1 :=
    match findSub v betaStr with
    | some i => if 0 < i then (v.take i, v.drop i) else (v, ([] : List Char))
    | none => (v, ([] : List Char))
  let s2 :=
    match findSub s1.1 rcStr with
    | some i => if 0 < i then (s1.1.take i, s1.1.drop i) else s1
    | none => s1
  let p := splitOnChar '.' (trimPre onePre s2.1)
  let maj := atoi (p.headD [])
  if p.length < 2 then (maj, 0, s2.2) else (maj, atoi (p.getD 1 []), s2.2)

/-- Model of `versionLess` from `utils.go`: `tip` first, then descending
`(maj, min)`, final releases before pre-releases, and pre-release tails in
descending lexicographic order. -/
def versionLess (a b : List Char) : Bool :=
  if a = tipStr then true
  else if b = tipStr then false
  else
    match parseVersion a, parseVersion b with
    | (maja, mina, ta), (majb, minb, tb) =>
      if maja = majb then
        if mina = minb then
          if ta = [] then true
          else if tb = [] then false
          else strLe tb ta
        else decide (minb ≤ mina)
      else decide (majb ≤ maja)

/-- Model of the `sort.SliceIsSorted` check in `latestPatches`: no element
is `versionLess` than its predecessor. -/
def sortedVers : List (List Char) → Bool
  | a :: b :: rest => !(versionLess b a) && sortedVers (b :: rest)
  | _ => true

/-- The loop of `latestPatches`: keep an element whenever its first parsed
component differs from the previous kept one's. -/
def lpGo (prev : Int) : List (List Char) → List (List Char)
  | [] => []
  | v :: vs =>
    let curr := (parseVersion v).1
    if prev ≠ curr then v :: lpGo curr vs else lpGo prev vs

/-- Model of `latestPatches` from `utils.go`; the `panic` on an unsorted
input is modelled as `none`. -/
def latestPatches (versions : List (List Char)) : Option (List (List Char)) :=
  if sortedVers versions = false then none
  else if versions.length = 0 ∨ versions.length = 1 then some versions
  else
    match versions with
    | [] => some []
    | v0 :: rest => some (v0 :: lpGo (parseVersion v0).1 rest)

def pathListSep : Char := ':'

/-- Model of `cutFromPath` from `utils.go`: split on the path-list
separator, keep the entries different from `value`, and re-join. -/
def cutFromPath (path value : List Char) : List Char :=
  joinChar pathListSep ((splitOnChar pathListSep path).filter (fun v => v ≠ value))

/-- Tail matcher for `versionRE`: the empty string or `(rc|beta)[1-9]+`
followed by end of input. -/
def matchTailEnd : List Char → Bool
  | [] => true
  | 'r' :: 'c' :: cs => cs ≠ [] && cs.all isDigit19
  | 'b' :: 'e' :: 't' :: 'a' :: cs => cs ≠ [] && cs.all isDigit19
  | _ => false

/-- Matcher for `(\.[1-9][0-9]*)?` followed by the tail part of `versionRE`. -/
def matchPatchTail : List Char → Bool
  | '.' :: rest =>
    match rest with
    | [] => false
    | c :: cs => isDigit19 c && matchTailEnd (cs.dropWhile isDigit09)
  | l => matchTailEnd l

/-- Matcher for up to two `(\.[1-9][0-9]*)?` groups followed by the tail
part of `versionRE`. -/
def matchMinorRest : List Char → Bool
  | '.' :: rest =>
    match rest with
    | [] => false
    | c :: cs => isDigit19 c && matchPatchTail (cs.dropWhile isDigit09)
  | l => matchTailEnd l

/-- Model of the anchored regular expression `versionRE` from
`commands.go`: `^(1(\.[1-9][0-9]*)?(\.[1-9][0-9]*)?((rc|beta)[1-9]+)?|tip)$`.
The groups have disjoint first characters, so the greedy deterministic
matcher decides the same language. -/
def versionRE (s : List Char) : Bool :=
  s = tipStr ||
    match s with
    | '1' :: rest => matchMinorRest rest
    | _ => false

deriving instance DecidableEq for Except

/-- One observable effect of a command, mirroring the recording test
doubles of the repository: subprocess runs, filesystem reads and
mutations, and printed messages. -/
inductive Ev where
  | runOut (name : List Char) (args : List (List Char))
  | run (name : List Char) (args : List (List Char))
  | readlink (name : List Char)
  | readDir
  | statSdk (name : List Char)
  | rmGobin (name : List Char)
  | symlink (oldname newname : List Char)
  | rmAllSdk (name : List Char)
  | print (msg : List Char)
  deriving DecidableEq, Repr

/-- A directory entry of the binary directory. -/
structure Entry where
  name : List Char
  isDir : Bool
  deriving DecidableEq, Repr

/-- The external state a command runs against: the `go version` subprocess
outcome, the active symlink's target (`none` models `fs.ErrNotExist`), the
binary directory listing, the set of files present under the SDK
directory, and the outcomes of the delegated subprocess and symlink
operations. -/
structure Sys where
  goOutOk : Bool
  goOut : List Char
  link : Option (List Char)
  readDirOk : Bool
  entries : List Entry
  sdkFiles : List (List Char)
  installOk : Bool
  downloadOk : Bool
  symlinkOk : Bool
  deriving DecidableEq, Repr

/-- The local version state computed by `localVersions`. -/
structure Local where
  main : List Char
  current : List Char
  list : List (List Char)
  deriving DecidableEq, Repr

/-- Errors of the modelled commands. -/
inductive GErr where
  | usage
  | subprocess
  | format (out : List Char)
  | malformed (v : List Char)
  | notExist
  | notInstalled (v : List Char)
  | unableRemove (v : List Char)
  deriving DecidableEq, Repr

/-- Membership test of `local.contains` from `commands.go`. -/
def containsVer (l : Local) (version : List Char) : Bool :=
  l.list.any (fun v => v = version)

def versionArg : List Char := "version".toList

def installArg : List Char := "install".toList

def downloadArg : List Char := "download".toList

def unpStr : List Char := "/.unpacked-success".toList

def gotipBin : List Char := "gotip/bin/go".toList

/-- The SDK file whose presence `downloaded` checks: the
`.unpacked-success` sentinel, or `gotip/bin/go` for `tip`. -/
def dlName (version : List Char) : List Char :=
  if version = tipStr then gotipBin else goStr ++ version ++ unpStr

def msgInUse : List Char := " is already in use\n".toList

def msgLooking : List Char := " is not installed. Looking for it on go.dev ...\n".toList

def msgSdkMissing : List Char := " SDK is missing. Starting download ...\n".toList

/-- The `golang.org/dl/go<version>@latest` install target. -/
def instURL (version : List Char) : List Char :=
  "golang.org/dl/go".toList ++ version ++ "@latest".toList

def msgSwitchedMain (v : List Char) : List Char :=
  "Switched to ".toList ++ v ++ " (main)\n".toList

def msgSwitched (v : List Char) : List Char :=
  "Switched to ".toList ++ v ++ "\n".toList

def msgRemoved (v : List Char) : List Char :=
  "Removed ".toList ++ v ++ "\n".toList

/-- Sorting of the installed list by `versionLess`, as `sort.Slice` does in
`localVersions`.  `sort.Slice` fixes only the comparator, not the
algorithm; insertion sort realizes one comparator-consistent order and the
claims under verification depend on membership only. -/
def sortVers (l : List (List Char)) : List (List Char) :=
  List.insertionSort (fun a b => versionLess a b = true) l

/-- Model of `localVersions` from `commands.go`.  The temporary `PATH`
sanitation via `cutFromPath` only steers subprocess resolution and is
summarized by `goOut`/`goOutOk`; a `Readlink` failure other than
`fs.ErrNotExist` is not modelled (the recording double never produces
one). -/
def localVersions (s : Sys) : List Ev × Except GErr Local :=
  let tr0 := [Ev.runOut goStr [versionArg]]
  if s.goOutOk = false then (tr0, .error .subprocess)
  else
    let parts := splitOnChar ' ' s.goOut
    if parts.length ≠ 4 then (tr0, .error (.format s.goOut))
    else
      let mn := trimPre goStr (parts.getD 2 [])
      let current :=
        match s.link with
        | none => mn
        | some target => trimPre goStr (baseName target)
      let tr2 := tr0 ++ [Ev.readlink goStr, Ev.readDir]
      if s.readDirOk = false then (tr2, .error .subprocess)
      else
        let lst := mn :: s.entries.filterMap (fun e =>
          if e.isDir then none
          else
            let v := trimPre goStr e.name
            if versionRE v then some v else none)
        (tr2, .ok { main := mn, current := current, list := sortVers lst })

/-- The symlink-swap epilogue of `use`: remove the active symlink
(its absence is tolerated there) and create the new one. -/
def useLink (s : Sys) (tr : List Ev) (version : List Char) :
    List Ev × Except GErr Unit :=
  let tr := tr ++ [Ev.rmGobin goStr]
  if s.symlinkOk then
    (tr ++ [Ev.symlink (goStr ++ version) goStr, Ev.print (msgSwitched version)], .ok ())
  else
    (tr ++ [Ev.symlink (goStr ++ version) goStr], .error .subprocess)

/-- The SDK-ensuring step of `use`: stat the sentinel, and when it is
absent run the versioned binary's `download` subcommand (announcing it
unless this is the initial installation). -/
def useDownload (s : Sys) (tr : List Ev) (version : List Char) (initial : Bool) :
    List Ev × Except GErr Unit :=
  let tr := tr ++ [Ev.statSdk (dlName version)]
  if dlName version ∈ s.sdkFiles then useLink s tr version
  else
    let msgs := if initial then [] else [Ev.print (version ++ msgSdkMissing)]
    if s.downloadOk then
      useLink s (tr ++ msgs ++ [Ev.run (goStr ++ version) [downloadArg]]) version
    else
      (tr ++ msgs ++ [Ev.run (goStr ++ version) [downloadArg]], .error .subprocess)

/-- The add-on branch of `use`: install the versioned binary when it is
not in the installed list, then ensure the SDK and swap the symlink. -/
def useInstall (s : Sys) (tr : List Ev) (lcl : Local) (version : List Char) :
    List Ev × Except GErr Unit :=
  if containsVer lcl version then useDownload s tr version false
  else
    let tr := tr ++ [Ev.print (version ++ msgLooking),
                     Ev.run goStr [installArg, instURL version]]
    if s.installOk then useDownload s tr version true
    else (tr, .error .subprocess)

/-- Model of `use` from `commands.go`. -/
def use (s : Sys) (args : List (List Char)) : List Ev × Except GErr Unit :=
  if args = [] then ([], .error .usage)
  else
    match localVersions s with
    | (tr, .error e) => (tr, .error e)
    | (tr, .ok lcl) =>
      let version := if args.headD [] = mainStr then lcl.main else args.headD []
      if versionRE version = false then (tr, .error (.malformed version))
      else if version = lcl.current then
        (tr ++ [Ev.print (version ++ msgInUse)], .ok ())
      else if version = lcl.main then
        match s.link with
        | none => (tr ++ [Ev.rmGobin goStr], .error .notExist)
        | some _ => (tr ++ [Ev.rmGobin goStr, Ev.print (msgSwitchedMain version)], .ok ())
      else useInstall s tr lcl version

/-- Model of `remove` from `commands.go`. -/
def remove (s : Sys) (args : List (List Char)) : List Ev × Except GErr Unit :=
  if args = [] then ([], .error .usage)
  else
    match localVersions s with
    | (tr, .error e) => (tr, .error e)
    | (tr, .ok lcl) =>
      let version := if args.headD [] = mainStr then lcl.main else args.headD []
      if versionRE version = false then (tr, .error (.malformed version))
      else if containsVer lcl version = false then (tr, .error (.notInstalled version))
      else if version = lcl.main then (tr, .error (.unableRemove version))
      else
        let step :=
          if version = lcl.current then
            match s.link with
            | none => (tr ++ [Ev.rmGobin goStr], false)
            | some _ => (tr ++ [Ev.rmGobin goStr, Ev.print (msgSwitchedMain lcl.main)], true)
          else (tr, true)
        if step.2 = false then (step.1, .error .notExist)
        else if (goStr ++ version) ∈ s.entries.map Entry.name then
          (step.1 ++ [Ev.rmGobin (goStr ++ version), Ev.rmAllSdk (goStr ++ version),
                      Ev.print (msgRemoved version)], .ok ())
        else (step.1 ++ [Ev.rmGobin (goStr ++ version)], .error .notExist)

/-- True for the trace events that mutate the filesystem. -/
def isMut : Ev → Bool
  | .rmGobin _ => true
  | .symlink _ _ => true
  | .rmAllSdk _ => true
  | _ => false

/-- True for the trace events that run an install/download subprocess
(the `commandOutput` version query is a read and is excluded). -/
def isRunCmd : Ev → Bool
  | .run _ _ => true
  | _ => false

/-- The event trace of a successful (or failed) `localVersions` run. -/
def lvTrace : List Ev := [Ev.runOut goStr [versionArg], Ev.readlink goStr, Ev.readDir]

theorem strLe_total (a b : List Char) : strLe a b = true ∨ strLe b a = true := by
  induction a generalizing b with
  | nil => left; rfl
  | cons c cs ih =>
    cases b with
    | nil => right; rfl
    | cons d ds =>
      by_cases h : c = d
      · subst h
        rcases ih ds with h1 | h1
        · left; simpa [strLe] using h1
        · right; simpa [strLe] using h1
      · rcases lt_trichotomy c d with hlt | heq | hgt
        · left; simp [strLe, h, hlt]
        · exact absurd heq h
        · right; simp [strLe, Ne.symm h, hgt]

theorem strLe_antisymm (a b : List Char) (h1 : strLe a b = true) (h2 : strLe b a = true) :
    a = b := by
  induction a generalizing b with
  | nil =>
    cases b with
    | nil => rfl
    | cons d ds => exact absurd h2 (by simp [strLe])
  | cons c cs ih =>
    cases b with
    | nil => exact absurd h1 (by simp [strLe])
    | cons d ds =>
      by_cases h : c = d
      · subst h
        simp only [strLe, if_pos rfl] at h1 h2
        rw [ih ds h1 h2]
      · exfalso
        simp only [strLe, if_neg h, if_neg (Ne.symm h), decide_eq_true_eq] at h1 h2
        exact absurd (lt_trans h1 h2) (lt_irrefl c)

theorem versionLess_asymm (a b : List Char) (ha : a ≠ tipStr) (hb : b ≠ tipStr)
    (h : parseVersion a ≠ parseVersion b) :
    (versionLess a b = true ∧ versionLess b a = false) ∨
      (versionLess a b = false ∧ versionLess b a = true) := by
  unfold versionLess
  rw [if_neg ha, if_neg hb, if_neg hb, if_neg ha]
  rcases hA : parseVersion a with ⟨ma, na, ta⟩
  rcases hB : parseVersion b with ⟨mb, nb, tb⟩
  rw [hA, hB] at h
  dsimp only
  by_cases hm : ma = mb
  · subst hm
    by_cases hn : na = nb
    · subst hn
      have hts : ta ≠ tb := by
        intro hh
        exact h (by rw [hh])
      by_cases h1 : ta = []
      · subst h1
        have h2 : tb ≠ [] := fun hh => hts hh.symm
        left; simp [h2]
      · by_cases h2 : tb = []
        · subst h2
          right; simp [h1]
        · simp only [eq_self_iff_true, if_true, if_neg h1, if_neg h2]
          rcases strLe_total ta tb with h3 | h3
          · by_cases h4 : strLe tb ta = true
            · exact absurd (strLe_antisymm ta tb h3 h4) hts
            · right
              exact ⟨by simpa using h4, h3⟩
          · left
            refine ⟨h3, ?_⟩
            by_cases h4 : strLe ta tb = true
            · exact absurd (strLe_antisymm ta tb h4 h3) hts
            · simpa using h4
    · simp only [eq_self_iff_true, if_true, if_neg hn, if_neg (Ne.symm hn), decide_eq_true_eq]
      rcases le_or_lt na nb with h3 | h3
      · right
        refine ⟨?_, by simpa using h3⟩
        simp only [decide_eq_false_iff_not, not_le]
        exact lt_of_le_of_ne h3 hn
      · left
        refine ⟨by simpa using le_of_lt h3, ?_⟩
        simp only [decide_eq_false_iff_not, not_le]
        exact h3
  · simp only [if_neg hm, if_neg (Ne.symm hm), decide_eq_true_eq]
    rcases le_or_lt ma mb with h3 | h3
    · right
      refine ⟨?_, by simpa using h3⟩
      simp only [decide_eq_false_iff_not, not_le]
      exact lt_of_le_of_ne h3 hm
    · left
      refine ⟨by simpa using le_of_lt h3, ?_⟩
      simp only [decide_eq_false_iff_not, not_le]
      exact h3

/-- C1 counterexample: the strings `1` and `1.1` are both accepted by the
grammar, are different, and `versionLess` holds in both directions between
them (they parse to the same `(maj, min, tail)` triple), so `versionLess`
is not a strict total order on valid version strings. -/
theorem c1_not_strict_total_cex :
    versionRE "1".toList = true ∧ versionRE "1.1".toList = true ∧
      "1".toList ≠ "1.1".toList ∧
      versionLess "1".toList "1.1".toList = true ∧
      versionLess "1.1".toList "1".toList = true := by decide

/-- C1 (amended): for valid version strings `a ≠ b`, exactly one of
`versionLess a b` / `versionLess b a` holds provided one of them is `tip`
or their parsed `(maj, min, tail)` triples differ (distinct valid strings
with equal parses, such as `1` and `1.1`, have both directions true); and
`tip` sorts before every version while no valid non-`tip` version sorts
before `tip`. -/
theorem c1_strict_total_amended (a b : List Char)
    (ha : versionRE a = true) (hb : versionRE b = true) (hne : a ≠ b)
    (hkey : a = tipStr ∨ b = tipStr ∨ parseVersion a ≠ parseVersion b) :
    ((versionLess a b = true ∧ versionLess b a = false) ∨
      (versionLess a b = false ∧ versionLess b a = true)) ∧
      versionLess tipStr b = true ∧ (b ≠ tipStr → versionLess b tipStr = false) := by
  refine ⟨?_, by simp [versionLess], fun hbt => by simp [versionLess, hbt]⟩
  by_cases hat : a = tipStr
  · subst hat
    have hbt : b ≠ tipStr := fun hh => hne hh.symm
    left
    exact ⟨by simp [versionLess], by simp [versionLess, hbt]⟩
  · by_cases hbt : b = tipStr
    · subst hbt
      right
      exact ⟨by simp [versionLess, hat], by simp [versionLess]⟩
    · rcases hkey with h | h | h
      · exact absurd h hat
      · exact absurd h hbt
      · exact versionLess_asymm a b hat hbt h

/-- Witness for the C1 amended theorem at `a = 1.19`, `b = 1.20rc1`. -/
theorem c1_strict_total_amended_witness :
    ((versionLess "1.19".toList "1.20rc1".toList = true ∧
        versionLess "1.20rc1".toList "1.19".toList = false) ∨
      (versionLess "1.19".toList "1.20rc1".toList = false ∧
        versionLess "1.20rc1".toList "1.19".toList = true)) ∧
      versionLess tipStr "1.20rc1".toList = true ∧
      ("1.20rc1".toList ≠ tipStr → versionLess "1.20rc1".toList tipStr = false) :=
  c1_strict_total_amended "1.19".toList "1.20rc1".toList (by decide) (by decide)
    (by decide) (Or.inr (Or.inr (by decide)))

/-- C7: `latestPatches` on the descending-sorted list
`[1.20rc3, 1.20rc2, 1.20rc1, 1.19.5, 1.19.4, 1.19.3]` passes the sorted
check and collapses each run sharing a release line to its first, newest
element, yielding `[1.20rc3, 1.19.5]`. -/
theorem c7_latest_patches_example :
    latestPatches ["1.20rc3".toList, "1.20rc2".toList, "1.20rc1".toList,
        "1.19.5".toList, "1.19.4".toList, "1.19.3".toList] =
      some ["1.20rc3".toList, "1.19.5".toList] := by decide

/-- C8: `latestPatches` on any input that violates the sortedness
precondition panics (modelled as `none`) instead of returning a result. -/
theorem c8_unsorted_panics (vs : List (List Char)) (h : sortedVers vs = false) :
    latestPatches vs = none := by
  simp [latestPatches, h]

/-- Witness for C8 at the unsorted list `[1.18, 1.19]`. -/
theorem c8_unsorted_panics_witness :
    sortedVers ["1.18".toList, "1.19".toList] = false ∧
      latestPatches ["1.18".toList, "1.19".toList] = none :=
  ⟨by decide, c8_unsorted_panics ["1.18".toList, "1.19".toList] (by decide)⟩

theorem isPrefixOf_append (p x : List Char) : p.isPrefixOf (p ++ x) = true := by
  induction p with
  | nil => simp [List.isPrefixOf]
  | cons c cs ih => simp [List.isPrefixOf, ih]

theorem trimPre_append (p x : List Char) : trimPre p (p ++ x) = x := by
  unfold trimPre
  rw [isPrefixOf_append, if_pos rfl, List.drop_left]

/-- Every successful `localVersions` run yields the resolver trace and the
state computed from the subprocess output, the symlink and the directory
listing. -/
theorem localVersions_ok (s : Sys) (tr : List Ev) (l : Local)
    (h : localVersions s = (tr, .ok l)) :
    tr = lvTrace ∧
      l.main = trimPre goStr ((splitOnChar ' ' s.goOut).getD 2 []) ∧
      l.current = (match s.link with
        | none => l.main
        | some target => trimPre goStr (baseName target)) ∧
      l.list = sortVers (l.main :: s.entries.filterMap (fun e =>
        if e.isDir then none
        else
          if versionRE (trimPre goStr e.name) then some (trimPre goStr e.name)
          else none)) := by
  simp only [localVersions] at h
  split at h
  · exact Except.noConfusion (congrArg Prod.snd h)
  · split at h
    · exact Except.noConfusion (congrArg Prod.snd h)
    · split at h
      · exact Except.noConfusion (congrArg Prod.snd h)
      · have htr := congrArg Prod.fst h
        have hok := congrArg Prod.snd h
        simp only [Except.ok.injEq] at hok
        subst htr
        subst hok
        exact ⟨rfl, rfl, rfl, rfl⟩

/-- A state in which the active symlink points at `go1.18` while the
binary directory listing is empty: `localVersions` still succeeds. -/
def c2Sys : Sys :=
  { goOutOk := true, goOut := "go version go1.19 linux/amd64".toList,
    link := some "/path/to/go1.18".toList, readDirOk := true, entries := [],
    sdkFiles := [], installOk := true, downloadOk := true, symlinkOk := true }

/-- C2 counterexample: from `c2Sys` the resolver returns successfully with
`current = 1.18`, which is neither the returned `main = 1.19` nor a member
of the returned installed list `[1.19]`. -/
theorem c2_current_unlisted_cex :
    localVersions c2Sys =
      (lvTrace, .ok { main := "1.19".toList, current := "1.18".toList,
                      list := ["1.19".toList] }) ∧
      "1.18".toList ≠ "1.19".toList ∧ "1.18".toList ∉ ["1.19".toList] := by decide

/-- C2 (amended): whenever `localVersions` returns successfully and the
active symlink, when present, points at a non-directory entry of the
binary directory named `go` + current whose version matches the grammar,
the returned current version is the returned main version or a member of
the returned installed list.  (Without that consistency condition the
invariant fails: see the counterexample state.) -/
theorem c2_current_invariant_amended (s : Sys) (tr : List Ev) (l : Local)
    (hok : localVersions s = (tr, .ok l))
    (hlink : s.link = none ∨ ∃ t, s.link = some t ∧ ∃ e, e ∈ s.entries ∧
      e.isDir = false ∧ e.name = goStr ++ trimPre goStr (baseName t) ∧
      versionRE (trimPre goStr (baseName t)) = true) :
    l.current = l.main ∨ l.current ∈ l.list := by
  obtain ⟨-, -, hcur, hlist⟩ := localVersions_ok s tr l hok
  rcases hlink with hnone | ⟨t, hlt, e, hmem, hdir, hname, hre⟩
  · left
    rw [hcur, hnone]
  · right
    have hc : l.current = trimPre goStr (baseName t) := by rw [hcur, hlt]
    rw [hlist, sortVers, List.mem_insertionSort, hc]
    refine List.mem_cons_of_mem _ (List.mem_filterMap.mpr ⟨e, hmem, ?_⟩)
    rw [hdir, hname, trimPre_append]
    simp [hre]

/-- A consistent state: the symlink points at `go1.18` and the binary
directory lists `go1.18`. -/
def c2wSys : Sys :=
  { goOutOk := true, goOut := "go version go1.19 linux/amd64".toList,
    link := some "/path/to/go1.18".toList, readDirOk := true,
    entries := [{ name := "go1.18".toList, isDir := false }],
    sdkFiles := [], installOk := true, downloadOk := true, symlinkOk := true }

/-- Witness for the C2 amended theorem at the consistent state `c2wSys`. -/
theorem c2_current_invariant_amended_witness :
    ("1.18".toList : List Char) = "1.19".toList ∨
      "1.18".toList ∈ ["1.19".toList, "1.18".toList] :=
  c2_current_invariant_amended c2wSys lvTrace
    { main := "1.19".toList, current := "1.18".toList,
      list := ["1.19".toList, "1.18".toList] }
    (by decide)
    (Or.inr ⟨"/path/to/go1.18".toList, rfl,
      { name := "go1.18".toList, isDir := false }, by decide, rfl, by decide, by decide⟩)

/-- Every event recorded by `localVersions` is a read: no filesystem
mutation and no install/download subprocess run. -/
theorem localVersions_trace_clean (s : Sys) (e : Ev)
    (he : e ∈ (localVersions s).1) : isMut e = false ∧ isRunCmd e = false := by
  simp only [localVersions] at he
  split at he
  · simp only [List.mem_singleton] at he
    subst he
    exact ⟨rfl, rfl⟩
  · split at he
    · simp only [List.mem_singleton] at he
      subst he
      exact ⟨rfl, rfl⟩
    · split at he <;>
        · simp only [List.mem_append, List.mem_singleton, List.mem_cons,
            List.not_mem_nil, or_false] at he
          rcases he with rfl | rfl | rfl <;> exact ⟨rfl, rfl⟩

/-- The main version returned by a successful `localVersions` run is
always a member of the returned installed list. -/
theorem localVersions_main_mem (s : Sys) (tr : List Ev) (l : Local)
    (hok : localVersions s = (tr, .ok l)) : containsVer l l.main = true := by
  obtain ⟨-, -, -, hlist⟩ := localVersions_ok s tr l hok
  refine List.any_eq_true.mpr ⟨l.main, ?_, by simp⟩
  rw [hlist, sortVers, List.mem_insertionSort]
  exact List.mem_cons_self _ _

/-- C5: `remove main`, and `remove X` for an `X` equal to the resolved
main version, fails with the unable-to-remove error whatever the rest of
the state (in particular whatever version is current), and the whole trace
contains no filesystem mutation. -/
theorem c5_remove_main_refused (s : Sys) (tr : List Ev) (l : Local) (X : List Char)
    (hok : localVersions s = (tr, .ok l)) (hre : versionRE l.main = true)
    (hX : X = mainStr ∨ X = l.main) :
    remove s [X] = (tr, .error (.unableRemove l.main)) ∧ ∀ e ∈ tr, isMut e = false := by
  have hmem : containsVer l l.main = true := localVersions_main_mem s tr l hok
  have hver : (if (X = mainStr) then l.main else X) = l.main := by
    rcases hX with rfl | rfl
    · simp
    · split <;> rfl
  refine ⟨?_, fun e he => (localVersions_trace_clean s e (by rw [hok]; exact he)).1⟩
  simp only [remove, List.cons_ne_nil, if_false, hok, List.headD_cons, hver, hre, hmem]
  simp

/-- Witness for C5 at a state whose current version differs from main. -/
theorem c5_remove_main_refused_witness :
    remove c2wSys [mainStr] = (lvTrace, .error (.unableRemove "1.19".toList)) ∧
      ∀ e ∈ lvTrace, isMut e = false :=
  c5_remove_main_refused c2wSys lvTrace
    { main := "1.19".toList, current := "1.18".toList,
      list := ["1.19".toList, "1.18".toList] } mainStr
    (by decide) (by decide) (Or.inl rfl)

/-- C6: when the requested version equals the current one, `use` prints
the already-in-use message, succeeds, and its whole trace contains no
filesystem mutation and no install/download subprocess run. -/
theorem c6_already_in_use_noop (s : Sys) (tr : List Ev) (l : Local) (X : List Char)
    (hok : localVersions s = (tr, .ok l)) (hmain : X ≠ mainStr)
    (hre : versionRE X = true) (hcur : X = l.current) :
    use s [X] = (tr ++ [Ev.print (X ++ msgInUse)], .ok ()) ∧
      ∀ e ∈ tr ++ [Ev.print (X ++ msgInUse)], isMut e = false ∧ isRunCmd e = false := by
  constructor
  · simp only [use, List.cons_ne_nil, if_false, hok, List.headD_cons, if_neg hmain]
    rw [if_neg (by simp [hre]), if_pos hcur]
  · intro e he
    rcases List.mem_append.mp he with he | he
    · exact localVersions_trace_clean s e (by rw [hok]; exact he)
    · simp only [List.mem_singleton] at he
      subst he
      exact ⟨rfl, rfl⟩

/-- Witness for C6 at a state whose current version is `1.18`. -/
theorem c6_already_in_use_noop_witness :
    use c2wSys ["1.18".toList] =
      (lvTrace ++ [Ev.print ("1.18".toList ++ msgInUse)], .ok ()) ∧
      ∀ e ∈ lvTrace ++ [Ev.print ("1.18".toList ++ msgInUse)],
        isMut e = false ∧ isRunCmd e = false :=
  c6_already_in_use_noop c2wSys lvTrace
    { main := "1.19".toList, current := "1.18".toList,
      list := ["1.19".toList, "1.18".toList] } "1.18".toList
    (by decide) (by decide) (by decide) (by decide)

/-- A state with main `1.19`, nothing installed, yet the SDK marker for
`1.18` already present under the SDK directory. -/
def c3Sys : Sys :=
  { goOutOk := true, goOut := "go version go1.19 linux/amd64".toList,
    link := none, readDirOk := true, entries := [],
    sdkFiles := ["go1.18/.unpacked-success".toList],
    installOk := true, downloadOk := true, symlinkOk := true }

/-- C3 counterexample: from `c3Sys`, the version `1.18` passes the
grammar, differs from the resolved main and current versions and is not
installed, yet `use 1.18` succeeds without ever issuing the download
subprocess (its SDK marker is already present), contradicting the claimed
mandatory install-stat-download-remove-symlink sequence. -/
theorem c3_skip_download_cex :
    localVersions c3Sys =
      (lvTrace, .ok { main := "1.19".toList, current := "1.19".toList,
                      list := ["1.19".toList] }) ∧
      versionRE "1.18".toList = true ∧
      "1.18".toList ≠ "1.19".toList ∧
      containsVer { main := "1.19".toList, current := "1.19".toList,
                    list := ["1.19".toList] } "1.18".toList = false ∧
      (use c3Sys ["1.18".toList]).2 = .ok () ∧
      Ev.run (goStr ++ "1.18".toList) [downloadArg] ∉ (use c3Sys ["1.18".toList]).1 := by
  decide

/-- C3 (amended): for a version that passes the grammar, differs from the
resolved main and current versions, is not installed, and whose SDK marker
is absent, `use` performs the install subprocess, the SDK-marker stat, the
download subprocess, the symlink removal and the symlink creation, in
exactly that order, and succeeds.  (When the SDK marker is already
present the download subprocess is skipped: see the counterexample.) -/
theorem c3_install_order_amended (s : Sys) (tr : List Ev) (l : Local) (X : List Char)
    (hok : localVersions s = (tr, .ok l)) (hmain : X ≠ mainStr)
    (hre : versionRE X = true) (hcur : X ≠ l.current) (hm : X ≠ l.main)
    (hinst : containsVer l X = false) (hsdk : dlName X ∉ s.sdkFiles)
    (hio : s.installOk = true) (hdo : s.downloadOk = true) (hso : s.symlinkOk = true) :
    use s [X] =
      (tr ++ [Ev.print (X ++ msgLooking), Ev.run goStr [installArg, instURL X],
              Ev.statSdk (dlName X), Ev.run (goStr ++ X) [downloadArg],
              Ev.rmGobin goStr, Ev.symlink (goStr ++ X) goStr,
              Ev.print (msgSwitched X)], .ok ()) := by
  simp only [use, List.cons_ne_nil, if_false, hok, List.headD_cons, if_neg hmain]
  rw [if_neg (by simp [hre]), if_neg hcur, if_neg hm]
  rw [useInstall, if_neg (by simp [hinst]), if_pos (by rw [hio])]
  rw [useDownload, if_neg hsdk, if_pos (by rw [hdo])]
  rw [useLink, if_pos (by rw [hso])]
  simp

/-- Witness for the C3 amended theorem at a fresh state. -/
def c3wSys : Sys :=
  { goOutOk := true, goOut := "go version go1.19 linux/amd64".toList,
    link := none, readDirOk := true, entries := [], sdkFiles := [],
    installOk := true, downloadOk := true, symlinkOk := true }

/-- Witness for C3 (amended) at `c3wSys` with target `1.18`. -/
theorem c3_install_order_amended_witness :
    use c3wSys ["1.18".toList] =
      (lvTrace ++ [Ev.print ("1.18".toList ++ msgLooking),
                   Ev.run goStr [installArg, instURL "1.18".toList],
                   Ev.statSdk (dlName "1.18".toList),
                   Ev.run (goStr ++ "1.18".toList) [downloadArg],
                   Ev.rmGobin goStr, Ev.symlink (goStr ++ "1.18".toList) goStr,
                   Ev.print (msgSwitched "1.18".toList)], .ok ()) :=
  c3_install_order_amended c3wSys lvTrace
    { main := "1.19".toList, current := "1.19".toList, list := ["1.19".toList] }
    "1.18".toList (by decide) (by decide) (by decide) (by decide) (by decide)
    (by decide) (by decide) (by decide) (by decide) (by decide)

/-- C4: for a version that passes the grammar, differs from the resolved
main and current versions, is already installed, but whose SDK marker is
absent, `use` issues no install subprocess (no bare `go` run at all) and
still issues the download subprocess before swapping the symlink: the SDK
check runs independently of the binary-install check. -/
theorem c4_sdk_retry_confirmed (s : Sys) (tr : List Ev) (l : Local) (X : List Char)
    (hok : localVersions s = (tr, .ok l)) (hmain : X ≠ mainStr)
    (hre : versionRE X = true) (hcur : X ≠ l.current) (hm : X ≠ l.main)
    (hinst : containsVer l X = true) (hsdk : dlName X ∉ s.sdkFiles)
    (hdo : s.downloadOk = true) (hso : s.symlinkOk = true) :
    use s [X] =
      (tr ++ [Ev.statSdk (dlName X), Ev.print (X ++ msgSdkMissing),
              Ev.run (goStr ++ X) [downloadArg], Ev.rmGobin goStr,
              Ev.symlink (goStr ++ X) goStr, Ev.print (msgSwitched X)], .ok ()) ∧
      ∀ a, Ev.run goStr a ∉ (use s [X]).1 := by
  have hXne : X ≠ [] := by
    intro hh
    rw [hh] at hre
    exact absurd hre (by decide)
  have hmaineq : use s [X] =
      (tr ++ [Ev.statSdk (dlName X), Ev.print (X ++ msgSdkMissing),
              Ev.run (goStr ++ X) [downloadArg], Ev.rmGobin goStr,
              Ev.symlink (goStr ++ X) goStr, Ev.print (msgSwitched X)], .ok ()) := by
    simp only [use, List.cons_ne_nil, if_false, hok, List.headD_cons, if_neg hmain]
    rw [if_neg (by simp [hre]), if_neg hcur, if_neg hm]
    rw [useInstall, if_pos (by rw [hinst])]
    rw [useDownload, if_neg hsdk, if_pos (by rw [hdo])]
    rw [useLink, if_pos (by rw [hso])]
    simp
  refine ⟨hmaineq, fun a hmem => ?_⟩
  rw [hmaineq] at hmem
  rcases List.mem_append.mp hmem with hmem | hmem
  · exact absurd (localVersions_trace_clean s _ (by rw [hok]; exact hmem)).2 (by simp [isRunCmd])
  · simp only [List.mem_cons, List.not_mem_nil, or_false] at hmem
    rcases hmem with h | h | h | h | h | h <;> simp at h
    exact hXne h.1

/-- A state with `go1.18` installed but its SDK marker absent. -/
def c4wSys : Sys :=
  { goOutOk := true, goOut := "go version go1.19 linux/amd64".toList,
    link := none, readDirOk := true,
    entries := [{ name := "go1.18".toList, isDir := false }], sdkFiles := [],
    installOk := true, downloadOk := true, symlinkOk := true }

/-- Witness for C4 at `c4wSys` with target `1.18`. -/
theorem c4_sdk_retry_confirmed_witness :
    (use c4wSys ["1.18".toList] =
      (lvTrace ++ [Ev.statSdk (dlName "1.18".toList),
                   Ev.print ("1.18".toList ++ msgSdkMissing),
                   Ev.run (goStr ++ "1.18".toList) [downloadArg],
                   Ev.rmGobin goStr, Ev.symlink (goStr ++ "1.18".toList) goStr,
                   Ev.print (msgSwitched "1.18".toList)], .ok ())) ∧
      ∀ a, Ev.run goStr a ∉ (use c4wSys ["1.18".toList]).1 :=
  c4_sdk_retry_confirmed c4wSys lvTrace
    { main := "1.19".toList, current := "1.19".toList,
      list := ["1.19".toList, "1.18".toList] }
    "1.18".toList (by decide) (by decide) (by decide) (by decide) (by decide)
    (by decide) (by decide) (by decide) (by decide)

theorem splitOnChar_ne_nil (sep : Char) (l : List Char) : splitOnChar sep l ≠ [] := by
  cases l with
  | nil => simp [splitOnChar]
  | cons c cs =>
    simp only [splitOnChar]
    cases h : splitOnChar sep cs with
    | nil => simp
    | cons g gs => by_cases hcs : c = sep <;> simp [hcs]

theorem splitOnChar_no_sep (sep : Char) (e : List Char) (he : sep ∉ e) :
    splitOnChar sep e = [e] := by
  induction e with
  | nil => rfl
  | cons c cs ih =>
    have hc : ¬(c = sep) := fun hh => he (hh ▸ List.mem_cons_self c cs)
    have hcs : sep ∉ cs := fun hh => he (List.mem_cons_of_mem c hh)
    simp [splitOnChar, ih hcs, hc]

theorem splitOnChar_append_sep (sep : Char) (e rest : List Char) (he : sep ∉ e) :
    splitOnChar sep (e ++ sep :: rest) = e :: splitOnChar sep rest := by
  induction e with
  | nil =>
    simp only [List.nil_append, splitOnChar]
    rcases h : splitOnChar sep rest with _ | ⟨g, gs⟩
    · exact absurd h (splitOnChar_ne_nil sep rest)
    · simp
  | cons c cs ih =>
    have hc : ¬(c = sep) := fun hh => he (hh ▸ List.mem_cons_self c cs)
    have hcs : sep ∉ cs := fun hh => he (List.mem_cons_of_mem c hh)
    simp only [List.cons_append, splitOnChar, List.append_eq]
    rw [ih hcs]
    simp [hc]

theorem splitOnChar_joinChar (sep : Char) (entries : List (List Char))
    (hne : entries ≠ []) (hsep : ∀ e ∈ entries, sep ∉ e) :
    splitOnChar sep (joinChar sep entries) = entries := by
  induction entries with
  | nil => exact absurd rfl hne
  | cons e es ih =>
    cases es with
    | nil =>
      simpa [joinChar] using splitOnChar_no_sep sep e (hsep e (List.mem_cons_self e []))
    | cons e2 es2 =>
      have h1 : joinChar sep (e :: e2 :: es2) = e ++ sep :: joinChar sep (e2 :: es2) := rfl
      rw [h1, splitOnChar_append_sep sep e _ (hsep e (List.mem_cons_self e _)),
        ih (by simp) (fun x hx => hsep x (List.mem_cons_of_mem e hx))]

/-- C10: `cutFromPath` on a path assembled from separator-free entries
removes exactly the entries equal to `value`, keeping the relative order
of the remaining entries; when `value` is not an entry the path is
returned unchanged. -/
theorem c10_cut_from_path (entries : List (List Char)) (value : List Char)
    (hne : entries ≠ []) (hsep : ∀ e ∈ entries, pathListSep ∉ e) :
    cutFromPath (joinChar pathListSep entries) value =
      joinChar pathListSep (entries.filter (fun v => v ≠ value)) ∧
      (value ∉ entries →
        cutFromPath (joinChar pathListSep entries) value = joinChar pathListSep entries) := by
  have h1 : cutFromPath (joinChar pathListSep entries) value =
      joinChar pathListSep (entries.filter (fun v => v ≠ value)) := by
    rw [cutFromPath, splitOnChar_joinChar pathListSep entries hne hsep]
  refine ⟨h1, fun hmem => ?_⟩
  rw [h1, List.filter_eq_self.mpr]
  intro a ha
  simp only [decide_eq_true_eq]
  intro hh
  exact hmem (hh ▸ ha)

/-- Witness for C10: cutting a present entry (`bar`) and an absent one
(`qux`) from `foo:bar:baz`. -/
theorem c10_cut_from_path_witness :
    cutFromPath (joinChar pathListSep ["foo".toList, "bar".toList, "baz".toList])
        "bar".toList =
      joinChar pathListSep
        (["foo".toList, "bar".toList, "baz".toList].filter (fun v => v ≠ "bar".toList)) ∧
      cutFromPath (joinChar pathListSep ["foo".toList, "bar".toList, "baz".toList])
          "qux".toList =
        joinChar pathListSep ["foo".toList, "bar".toList, "baz".toList] :=
  ⟨(c10_cut_from_path ["foo".toList, "bar".toList, "baz".toList] "bar".toList
      (by decide) (by decide)).1,
    (c10_cut_from_path ["foo".toList, "bar".toList, "baz".toList] "qux".toList
      (by decide) (by decide)).2 (by decide)⟩

/-- Modelled from the spec: the tail part `(rc|beta)N` of the
specification's version shape, with `N` a decimal number. -/
def specTail : List Char → Bool
  | [] => true
  | 'r' :: 'c' :: cs => cs ≠ [] && cs.all isDigit09
  | 'b' :: 'e' :: 't' :: 'a' :: cs => cs ≠ [] && cs.all isDigit09
  | _ => false

/-- Modelled from the spec: optional `.PATCH` then the optional tail. -/
def specPatch : List Char → Bool
  | '.' :: rest =>
    match rest with
    | [] => false
    | c :: cs => isDigit09 c && specTail (cs.dropWhile isDigit09)
  | l => specTail l

/-- Modelled from the spec: optional `.MINOR[.PATCH]` then the optional
tail. -/
def specMinor : List Char → Bool
  | '.' :: rest =>
    match rest with
    | [] => false
    | c :: cs => isDigit09 c && specPatch (cs.dropWhile isDigit09)
  | l => specTail l

/-- Modelled from the spec: the shape `MAJOR[.MINOR[.PATCH]][(rc|beta)N]`
with arbitrary decimal components, as the specification's words describe
the accepted version identifiers. -/
def specShape : List Char → Bool
  | [] => false
  | c :: cs => isDigit09 c && specMinor (cs.dropWhile isDigit09)

/-- A `[1-9][0-9]*` numeric component. -/
def numTok (l : List Char) : Prop :=
  ∃ c cs, l = c :: cs ∧ isDigit19 c = true ∧ cs.all isDigit09 = true

/-- An optional `.`-prefixed `[1-9][0-9]*` component. -/
def dotNumOpt (l : List Char) : Prop :=
  l = [] ∨ ∃ n, l = '.' :: n ∧ numTok n

/-- An optional `(rc|beta)[1-9]+` pre-release tail. -/
def tailOpt (l : List Char) : Prop :=
  l = [] ∨ (∃ n, l = rcStr ++ n ∧ n ≠ [] ∧ n.all isDigit19 = true) ∨
    (∃ n, l = betaStr ++ n ∧ n ≠ [] ∧ n.all isDigit19 = true)

/-- The corrected version-identifier shape: `tip`, or the digit `1`
followed by up to two dot-number groups and an optional pre-release
tail. -/
def amendShape (v : List Char) : Prop :=
  v = tipStr ∨
    ∃ m p t, v = '1' :: (m ++ p ++ t) ∧ dotNumOpt m ∧ dotNumOpt p ∧ tailOpt t

/-- A list that is empty or starts with a non-digit character. -/
def headNondigit (l : List Char) : Prop :=
  l = [] ∨ ∃ c cs, l = c :: cs ∧ isDigit09 c = false

theorem dropWhile_digits (cs rest : List Char) (h : cs.all isDigit09 = true)
    (hr : headNondigit rest) : (cs ++ rest).dropWhile isDigit09 = rest := by
  induction cs with
  | nil =>
    rcases hr with rfl | ⟨c, cs2, rfl, hc⟩
    · rfl
    · simp [List.dropWhile_cons, hc]
  | cons c cs ih =>
    simp only [List.all_cons, Bool.and_eq_true] at h
    simp [List.dropWhile_cons, h.1, ih h.2]

theorem matchTailEnd_of_tailOpt (t : List Char) (ht : tailOpt t) :
    matchTailEnd t = true := by
  rcases ht with rfl | ⟨n, rfl, hn1, hn2⟩ | ⟨n, rfl, hn1, hn2⟩
  · rfl
  · show matchTailEnd ('r' :: 'c' :: n) = true
    simp [matchTailEnd, hn1, hn2]
  · show matchTailEnd ('b' :: 'e' :: 't' :: 'a' :: n) = true
    simp [matchTailEnd, hn1, hn2]

theorem headNondigit_tailOpt (t : List Char) (ht : tailOpt t) : headNondigit t := by
  rcases ht with rfl | ⟨n, rfl, -, -⟩ | ⟨n, rfl, -, -⟩
  · exact Or.inl rfl
  · exact Or.inr ⟨'r', 'c' :: n, rfl, by decide⟩
  · exact Or.inr ⟨'b', 'e' :: 't' :: 'a' :: n, rfl, by decide⟩

theorem headNondigit_dot (p t : List Char) (hp : dotNumOpt p) (ht : tailOpt t) :
    headNondigit (p ++ t) := by
  rcases hp with rfl | ⟨n, rfl, -⟩
  · simpa using headNondigit_tailOpt t ht
  · exact Or.inr ⟨'.', n ++ t, by simp, by decide⟩

theorem matchPatchTail_of_tailOpt (t : List Char) (ht : tailOpt t) :
    matchPatchTail t = true := by
  have h := matchTailEnd_of_tailOpt t ht
  rcases ht with rfl | ⟨n, rfl, -, -⟩ | ⟨n, rfl, -, -⟩
  · exact h
  · exact h
  · exact h

theorem matchPatchTail_shape (p t : List Char) (hp : dotNumOpt p) (ht : tailOpt t) :
    matchPatchTail (p ++ t) = true := by
  rcases hp with rfl | ⟨n, rfl, c, cs, rfl, hc, hcs⟩
  · simpa using matchPatchTail_of_tailOpt t ht
  · show matchPatchTail ('.' :: c :: (cs ++ t)) = true
    simp only [matchPatchTail]
    rw [dropWhile_digits cs t hcs (headNondigit_tailOpt t ht)]
    simp [hc, matchTailEnd_of_tailOpt t ht]

theorem matchMinorRest_of_tailOpt (t : List Char) (ht : tailOpt t) :
    matchMinorRest t = true := by
  have h := matchTailEnd_of_tailOpt t ht
  rcases ht with rfl | ⟨n, rfl, -, -⟩ | ⟨n, rfl, -, -⟩
  · exact h
  · exact h
  · exact h

theorem matchMinorRest_shape (m p t : List Char)
    (hm : dotNumOpt m) (hp : dotNumOpt p) (ht : tailOpt t) :
    matchMinorRest (m ++ p ++ t) = true := by
  rcases hm with rfl | ⟨n, rfl, c, cs, rfl, hc, hcs⟩
  · rcases hp with rfl | ⟨n, rfl, c, cs, rfl, hc, hcs⟩
    · simpa using matchMinorRest_of_tailOpt t ht
    · show matchMinorRest ('.' :: c :: (cs ++ t)) = true
      simp only [matchMinorRest]
      rw [dropWhile_digits cs t hcs (headNondigit_tailOpt t ht)]
      simp [hc, matchPatchTail_of_tailOpt t ht]
  · rw [List.append_assoc]
    show matchMinorRest ('.' :: c :: (cs ++ (p ++ t))) = true
    simp only [matchMinorRest]
    rw [dropWhile_digits cs (p ++ t) hcs (headNondigit_dot p t hp ht)]
    simp [hc, matchPatchTail_shape p t hp ht]

/-- C9 counterexample: the string `2.18` has the claimed shape
`MAJOR.MINOR` (per the spec-modelled shape predicate) yet the `versionRE`
grammar rejects it: the grammar only accepts major version `1`. -/
theorem c9_grammar_shape_cex :
    specShape "2.18".toList = true ∧ versionRE "2.18".toList = false := by decide

/-- C9 (amended): every string consisting of `1`, up to two dot-prefixed
`[1-9][0-9]*` components and an optional `(rc|beta)[1-9]+` tail — and the
sentinel `tip` — is accepted by the grammar; and a target that fails the
grammar makes both `use` and `remove` return the malformed-version error
(a returned error value, not a crash). -/
theorem c9_grammar_amended :
    (∀ v, amendShape v → versionRE v = true) ∧
      (∀ (s : Sys) (tr : List Ev) (l : Local) (X : List Char),
        localVersions s = (tr, .ok l) → X ≠ mainStr → versionRE X = false →
        use s [X] = (tr, .error (.malformed X)) ∧
          remove s [X] = (tr, .error (.malformed X))) := by
  constructor
  · intro v hv
    rcases hv with rfl | ⟨m, p, t, rfl, hm, hp, ht⟩
    · decide
    · have h := matchMinorRest_shape m p t hm hp ht
      have h2 : matchMinorRest (m ++ (p ++ t)) = true := by
        rw [← List.append_assoc]
        exact h
      simp [versionRE, h2]
  · intro s tr l X hok hX hre
    constructor
    · simp only [use, List.cons_ne_nil, if_false, hok, List.headD_cons, if_neg hX, hre]
      simp
    · simp only [remove, List.cons_ne_nil, if_false, hok, List.headD_cons, if_neg hX, hre]
      simp

/-- Witness for C9 (amended): `1.20rc1` decomposes into the amended shape
and is accepted; the malformed target `1.banana` makes `use` and `remove`
return the malformed-version error from a concrete state. -/
theorem c9_grammar_amended_witness :
    versionRE "1.20rc1".toList = true ∧
      use c3wSys ["1.banana".toList] =
        (lvTrace, .error (.malformed "1.banana".toList)) ∧
      remove c3wSys ["1.banana".toList] =
        (lvTrace, .error (.malformed "1.banana".toList)) :=
  ⟨c9_grammar_amended.1 "1.20rc1".toList
      (Or.inr ⟨".20".toList, [], "rc1".toList, by decide,
        Or.inr ⟨"20".toList, by decide, '2', "0".toList, by decide, by decide, by decide⟩,
        Or.inl rfl,
        Or.inr (Or.inl ⟨"1".toList, by decide, by decide, by decide⟩)⟩),
    (c9_grammar_amended.2 c3wSys lvTrace
      { main := "1.19".toList, current := "1.19".toList, list := ["1.19".toList] }
      "1.banana".toList (by decide) (by decide) (by decide)).1,
    (c9_grammar_amended.2 c3wSys lvTrace
      { main := "1.19".toList, current := "1.19".toList, list := ["1.19".toList] }
      "1.banana".toList (by decide) (by decide) (by decide)).2⟩
